import Mathlib

/-!
# Classical dataflow engine and the dead-code (liveness-style) pass

A shallow embedding of `ClassicalDataflow/dead-code-elimination.cpp`,
`a2-handin/dataflow.h` and `ClassicalDataflow/dominance.h`.

Fact sets (`Assignments`) are finite sets over a fact type with decidable
equality.  Basic blocks are addressed by their position in the function's
block list.  In-place C++ updates are written as explicit state passing.
-/

namespace llvm

/-! ## Enumerations of `dataflow.h` -/

/-- The meet operator, `enum Meet` of `dataflow.h`. -/
inductive Meet where
  | INTERSECTION
  | UNION
  deriving DecidableEq, Repr

/-- The traversal direction, `enum Direction` of `dataflow.h`. -/
inductive Direction where
  | FORWARDS
  | BACKWARDS
  deriving DecidableEq, Repr

/-- The top policy, `enum Top` of `dataflow.h`. -/
inductive Top where
  | ALL
  | NONE
  deriving DecidableEq, Repr

/-- The fact-set type `Assignments` (declared in `util.h`). -/
abbrev Assignments (α : Type) := Finset α

variable {α : Type} [DecidableEq α]

/-! ## Set helpers -/

namespace DataFlowUtil

/-- Modelled from the spec: `DataFlowUtil::setSubtract(dest, src)` lives in
`util.h`/`util.cpp`, which are not part of the sources.  It is the in-place
subtraction of section 4.1: the receiver `dest` loses every fact of `src`,
the argument `src` is not mutated.  The new content of `dest` is returned. -/
def setSubtract (dest src : Assignments α) : Assignments α :=
  dest \ src

end DataFlowUtil

namespace DataFlowPass

/-- Modelled from the spec: `DataFlowPass::meetFunction(in, out)` is only
declared in `dataflow.h`.  It merges the constant argument `in` into `out`
with the configured meet operator (union or intersection of fact sets) and
leaves `in` untouched.  The new content of `out` is returned. -/
def meetFunction (meet : Meet) (inp out : Assignments α) : Assignments α :=
  match meet with
  | Meet.UNION => out ∪ inp
  | Meet.INTERSECTION => out ∩ inp

/-- Modelled from the spec: `meetFn(in, out)`, the name under which
`dead-code-elimination.cpp` calls the engine's meet function. -/
def meetFn (meet : Meet) (inp out : Assignments α) : Assignments α :=
  meetFunction meet inp out

end DataFlowPass

/-! ## The transfer function of the dead-code pass -/

/-- The four reference parameters of a `transferFn` call.  `generate`, `kill`
and `input` are `const` references, `output` is the mutable one. -/
structure TransferCall (α : Type) where
  generate : Assignments α
  kill : Assignments α
  input : Assignments α
  output : Assignments α

namespace DcePass

/-- `DcePass::transferFn`, statement by statement:
`output = input; setSubtract(output, kill); meetFn(generate, output);`
The argument `meet` is the `_meet` member of the pass. -/
def transferFn (meet : Meet) (c : TransferCall α) : TransferCall α :=
  let c1 := { c with output := c.input }
  let c2 := { c1 with output := DataFlowUtil.setSubtract c1.output c1.kill }
  { c2 with output := DataFlowPass.meetFn meet c2.generate c2.output }

end DcePass

/-! ## The control-flow graph as the engine sees it -/

/-- One instruction: the value it defines (if any) and the values it reads. -/
structure Instruction (α : Type) where
  defines : Option α
  operands : List α

/-- A basic block: predecessor and successor edges (positions in the block
list of the function) and the ordered instruction sequence. -/
structure BasicBlock (α : Type) where
  preds : List Nat
  succs : List Nat
  instructions : List (Instruction α)

/-- The block list of a function, `BlockList`. -/
abbrev BlockList (α : Type) := List (BasicBlock α)

/-- A function: its name and its basic blocks. -/
structure Function (α : Type) where
  name : String
  blocks : BlockList α

namespace DataFlowUtil

/-- Modelled from the spec: `DataFlowUtil::defines(block)` (in the absent
`util.cpp`) is the set of values defined by the block. -/
def defines (block : BasicBlock α) : Assignments α :=
  block.instructions.foldl (fun acc ins => acc ∪ ins.defines.toFinset) ∅

/-- Modelled from the spec: `DataFlowUtil::uses(block)` (in the absent
`util.cpp`) is the set of values used by the block before being locally
redefined.  The accumulator holds the uses found so far and the values
defined so far. -/
def uses (block : BasicBlock α) : Assignments α :=
  (block.instructions.foldl
    (fun (acc : Assignments α × Assignments α) ins =>
      (acc.1 ∪ (ins.operands.toFinset \ acc.2), acc.2 ∪ ins.defines.toFinset))
    (∅, ∅)).1

end DataFlowUtil

/-! ## Block states and the analysis configuration -/

/-- The per-block record of the engine: `in`, `out`, `gen`, `kill`. -/
structure BlockState (α : Type) where
  inSet : Assignments α
  outSet : Assignments α
  gen : Assignments α
  kill : Assignments α

/-- The table of block states, `BlockStates`, keyed by block position. -/
abbrev BlockStates (α : Type) := Nat → BlockState α

/-- The class `DataFlowPass`: the members `_meet` and `_direction` and the
virtual methods an analysis overrides.  A method that receives a block also
receives the block's position, which is the block's identity.  `transferFn`
receives the `_meet` member of the object it is called on. -/
structure DataFlowPass (α : Type) where
  meet : Meet
  direction : Direction
  top : Nat → BasicBlock α → Assignments α
  init : Nat → BasicBlock α → Assignments α
  generate : Nat → BasicBlock α → Assignments α
  kill : Nat → BasicBlock α → Assignments α
  transferFn : Meet → TransferCall α → TransferCall α

namespace DataFlowPass

/-- Modelled from the spec: `getTop`, declared in `dataflow.h`.  The top
policy `ALL` stands for the universal fact set of the function, `NONE` for
the empty set. -/
def getTop (top : Top) (univ : Assignments α) : Assignments α :=
  match top with
  | Top.ALL => univ
  | Top.NONE => ∅

/-- Modelled from the spec: the meet over the boundary sets of the
neighbours of a block, accumulated with `meetFunction`.  A block without
neighbours has no meet (`none`): its boundary value is used as it is. -/
def meetOver (meet : Meet) : List (Assignments α) → Option (Assignments α)
  | [] => none
  | x :: xs => some (xs.foldl (fun acc s => meetFunction meet s acc) x)

/-- Writes one entry of the block-state table. -/
def setState (states : BlockStates α) (i : Nat) (v : BlockState α) : BlockStates α :=
  fun j => if j = i then v else states j

/-- Modelled from the spec: the initial block states of a run (step 2 of the
algorithm of section 4.2).  The boundary set of a block (`in` when running
forwards, `out` when running backwards) starts at `top`, the opposite set at
`init`; `gen` and `kill` are still empty. -/
def initStates (p : DataFlowPass α) (fn : BlockList α) : BlockStates α := fun i =>
  match fn[i]? with
  | some b =>
    match p.direction with
    | Direction.FORWARDS => ⟨p.top i b, p.init i b, ∅, ∅⟩
    | Direction.BACKWARDS => ⟨p.init i b, p.top i b, ∅, ∅⟩
  | none => ⟨∅, ∅, ∅, ∅⟩

/-- Modelled from the spec: `computeGenKill`, declared in `dataflow.h`.  It
stores `generate(block)` and `kill(block)` in the state of every block, once
(step 1 of the algorithm). -/
def computeGenKill (p : DataFlowPass α) (fn : BlockList α) (states : BlockStates α) :
    BlockStates α := fun i =>
  match fn[i]? with
  | some b => { states i with gen := p.generate i b, kill := p.kill i b }
  | none => states i

/-- Modelled from the spec: the new state of block `i` when it is visited
running forwards (step 4): `in` becomes the meet of the `out` sets of the
predecessors (or stays as it is without predecessors), `out` is obtained
from it by the transfer function. -/
def stepForwards (p : DataFlowPass α) (states : BlockStates α) (i : Nat)
    (b : BasicBlock α) : BlockState α :=
  let old := states i
  let newIn := (meetOver p.meet (b.preds.map fun j => (states j).outSet)).getD old.inSet
  let newOut := (p.transferFn p.meet ⟨old.gen, old.kill, newIn, old.outSet⟩).output
  { old with inSet := newIn, outSet := newOut }

/-- Modelled from the spec: the new state of block `i` when it is visited
running backwards (step 4 with the roles of `in` and `out` swapped): `out`
becomes the meet of the `in` sets of the successors (or stays as it is
without successors), `in` is obtained from it by the transfer function. -/
def stepBackwards (p : DataFlowPass α) (states : BlockStates α) (i : Nat)
    (b : BasicBlock α) : BlockState α :=
  let old := states i
  let newOut := (meetOver p.meet (b.succs.map fun j => (states j).inSet)).getD old.outSet
  let newIn := (p.transferFn p.meet ⟨old.gen, old.kill, newOut, old.inSet⟩).output
  { old with inSet := newIn, outSet := newOut }

/-- The new state of a visited block, by direction. -/
def step (p : DataFlowPass α) (states : BlockStates α) (i : Nat) (b : BasicBlock α) :
    BlockState α :=
  match p.direction with
  | Direction.FORWARDS => stepForwards p states i b
  | Direction.BACKWARDS => stepBackwards p states i b

/-- Modelled from the spec: the visit of one block during a traversal pass.
The state of the block is replaced and the `changed` flag is raised when a
boundary set differs from its previous value. -/
def visit (p : DataFlowPass α) (st : BlockStates α × Bool) (ib : Nat × BasicBlock α) :
    BlockStates α × Bool :=
  let old := st.1 ib.1
  let new := step p st.1 ib.1 ib.2
  (setState st.1 ib.1 new,
    st.2 || (decide (new.inSet ≠ old.inSet) || decide (new.outSet ≠ old.outSet)))

/-- Modelled from the spec: `traverseForwards`, declared in `dataflow.h`:
one full pass over the block list in its order.  Returns the new table and
whether a block state changed. -/
def traverseForwards (p : DataFlowPass α) (fn : BlockList α) (states : BlockStates α) :
    BlockStates α × Bool :=
  fn.enum.foldl (visit p) (states, false)

/-- Modelled from the spec: `traverseBackwards`, declared in `dataflow.h`:
one full pass over the block list in reverse order. -/
def traverseBackwards (p : DataFlowPass α) (fn : BlockList α) (states : BlockStates α) :
    BlockStates α × Bool :=
  fn.enum.reverse.foldl (visit p) (states, false)

/-- One full traversal pass in the direction of the analysis. -/
def traverse (p : DataFlowPass α) (fn : BlockList α) (states : BlockStates α) :
    BlockStates α × Bool :=
  match p.direction with
  | Direction.FORWARDS => traverseForwards p fn states
  | Direction.BACKWARDS => traverseBackwards p fn states

/-- The fixpoint loop (step 5): repeat a full pass until one changes nothing.
`fuel` bounds the number of passes; `none` means the bound was reached. -/
def iterate (pass : BlockStates α → BlockStates α × Bool) :
    Nat → BlockStates α → Option (BlockStates α)
  | 0, _ => none
  | fuel + 1, states =>
    match pass states with
    | (states', true) => iterate pass fuel states'
    | (states', false) => some states'

/-- Modelled from the spec: `runOnBlocks`, the engine run that
`DcePass::runOnFunction` calls: initial states, gen/kill computation, then
traversal passes until nothing changes. -/
def runOnBlocks (p : DataFlowPass α) (fuel : Nat) (fn : BlockList α) :
    Option (BlockStates α) :=
  iterate (traverse p fn) fuel (computeGenKill p fn (initStates p fn))

end DataFlowPass

/-! ## The dead-code pass -/

namespace DcePass

/-- `DcePass::top`: `return Assignments();`. -/
def top (_block : BasicBlock α) : Assignments α := ∅

/-- `DcePass::init`: `return Assignments();`. -/
def init (_block : BasicBlock α) : Assignments α := ∅

/-- `DcePass::generate`: `return DataFlowUtil::uses(block);`. -/
def generate (block : BasicBlock α) : Assignments α := DataFlowUtil.uses block

/-- `DcePass::kill`: `return DataFlowUtil::defines(block);`. -/
def kill (block : BasicBlock α) : Assignments α := DataFlowUtil.defines block

/-- The constructor `DcePass::DcePass() : DataFlowPass(ID, UNION, BACKWARDS)`
together with the overrides of the class. -/
def pass : DataFlowPass α where
  meet := Meet.UNION
  direction := Direction.BACKWARDS
  top := fun _ b => top b
  init := fun _ b => init b
  generate := fun _ b => generate b
  kill := fun _ b => kill b
  transferFn := transferFn

/-- What a call of `runOnFunction` leaves behind: the function, the block
states it computed, the local set `lived` and the returned flag. -/
structure RunResult (α : Type) where
  fn : Function α
  states : BlockStates α
  lived : Finset α
  ret : Bool

/-- `DcePass::runOnFunction`: takes the block list of the function, runs the
engine on it, declares the empty set `lived` and returns `false`.  The
printing of the function name is not modelled. -/
def runOnFunction (fuel : Nat) (fn : Function α) : Option (RunResult α) :=
  let blocks := fn.blocks
  match DataFlowPass.runOnBlocks pass fuel blocks with
  | none => none
  | some states =>
    let lived : Finset α := ∅
    some ⟨fn, states, lived, false⟩

end DcePass

/-! ## The dominance pass -/

namespace DominancePass

/-- Modelled from the spec: `DominancePass::top` (only declared in
`dominance.h`).  Facts are block positions, block `0` is the entry of a
function of `n` blocks.  The entry is seeded with itself only, every other
block with the universal set (top policy `ALL`). -/
def top (n : Nat) (i : Nat) (_block : BasicBlock Nat) : Assignments Nat :=
  if i = 0 then {0} else DataFlowPass.getTop Top.ALL (Finset.range n)

/-- Modelled from the spec: `DominancePass::generate` is the block itself. -/
def generate (i : Nat) (_block : BasicBlock Nat) : Assignments Nat := {i}

/-- Modelled from the spec: `DominancePass::kill`; the kill set of the
dominance analysis is implicit in its transfer function, nothing is killed
explicitly. -/
def kill (_i : Nat) (_block : BasicBlock Nat) : Assignments Nat := ∅

/-- Modelled from the spec: `DominancePass::transferFn`, the non-standard
combination `generate ∪ (input ∖ kill)`. -/
def transferFn (_meet : Meet) (c : TransferCall Nat) : TransferCall Nat :=
  { c with output := c.generate ∪ DataFlowUtil.setSubtract c.input c.kill }

/-- Modelled from the spec: the configuration of the dominance instance:
FORWARDS, INTERSECTION, top `ALL` with the entry seeded to itself. -/
def pass (n : Nat) : DataFlowPass Nat where
  meet := Meet.INTERSECTION
  direction := Direction.FORWARDS
  top := top n
  init := fun _ _ => DataFlowPass.getTop Top.ALL (Finset.range n)
  generate := generate
  kill := kill
  transferFn := transferFn

/-- Modelled from the spec: the new state of block `i` when the dominance
analysis visits it.  Section 4.3 gives the analysis its own transfer,
`in(B) = {B} ∪ intersect(out(P) for P in preds)`: the meet of the `out` sets
of the predecessors goes through `transferFn` (with `generate = {B}`, nothing
killed) and the result is the `in` set of the block.  A block without
predecessors keeps its boundary value, the entry its seed.  The `out` set
follows the equation of section 4.2, `out(B) = transfer(gen(B), kill(B),
in(B))`. -/
def step (states : BlockStates Nat) (i : Nat) (b : BasicBlock Nat) : BlockState Nat :=
  let old := states i
  let newIn :=
    match DataFlowPass.meetOver Meet.INTERSECTION (b.preds.map fun j => (states j).outSet) with
    | none => old.inSet
    | some m => (transferFn Meet.INTERSECTION ⟨old.gen, old.kill, m, old.inSet⟩).output
  let newOut := (transferFn Meet.INTERSECTION ⟨old.gen, old.kill, newIn, old.outSet⟩).output
  { old with inSet := newIn, outSet := newOut }

/-- Modelled from the spec: the visit of one block by the dominance analysis;
the `changed` flag is raised when a boundary set differs from its previous
value. -/
def visit (st : BlockStates Nat × Bool) (ib : Nat × BasicBlock Nat) :
    BlockStates Nat × Bool :=
  let old := st.1 ib.1
  let new := step st.1 ib.1 ib.2
  (DataFlowPass.setState st.1 ib.1 new,
    st.2 || (decide (new.inSet ≠ old.inSet) || decide (new.outSet ≠ old.outSet)))

/-- Modelled from the spec: one full forward pass of the dominance analysis
over the block list. -/
def traverseForwards (fn : BlockList Nat) (states : BlockStates Nat) :
    BlockStates Nat × Bool :=
  fn.enum.foldl visit (states, false)

/-- Modelled from the spec: the run of the dominance analysis on a function of
`n` blocks: initial states and gen/kill from the configuration, then forward
passes until one changes nothing. -/
def runOnBlocks (n : Nat) (fuel : Nat) (fn : BlockList Nat) : Option (BlockStates Nat) :=
  DataFlowPass.iterate (traverseForwards fn) fuel
    (DataFlowPass.computeGenKill (pass n) fn (DataFlowPass.initStates (pass n) fn))

end DominancePass

/-! ## Scenario graphs -/

/-- The chain `A → B → C` (blocks `0, 1, 2`) with the given instruction
sequences. -/
def chain (ia ib ic : List (Instruction α)) : BlockList α :=
  [⟨[], [1], ia⟩, ⟨[0], [2], ib⟩, ⟨[1], [], ic⟩]

/-- The function of one block without predecessors and successors. -/
def singleBlock (instrs : List (Instruction α)) : BlockList α :=
  [⟨[], [], instrs⟩]

/-- A graph with a loop `1 → 2 → 1`, an exit `3` and an unreachable block `4`
that jumps into the loop. -/
def loopGraph : BlockList Nat :=
  [⟨[], [1], [⟨some 0, []⟩]⟩,
   ⟨[0, 2, 4], [2], [⟨some 1, [0, 1]⟩]⟩,
   ⟨[1], [1, 3], [⟨some 2, [1]⟩, ⟨some 0, [2, 5]⟩]⟩,
   ⟨[2], [], [⟨none, [2]⟩]⟩,
   ⟨[], [1], [⟨some 6, [7]⟩]⟩]

/-- The table the liveness run on `loopGraph` returns (the empty table if it
returned none). -/
def loopRun : BlockStates Nat :=
  (DataFlowPass.runOnBlocks DcePass.pass 51 loopGraph).getD fun _ => ⟨∅, ∅, ∅, ∅⟩

end llvm

/-! ## Orders and measures used by the termination argument -/

namespace llvm

variable {α : Type} [DecidableEq α]

/-- The order of block states: both boundary sets grow, `gen` and `kill`
stay. -/
def BlockState.le (a b : BlockState α) : Prop :=
  a.inSet ⊆ b.inSet ∧ a.outSet ⊆ b.outSet ∧ a.gen = b.gen ∧ a.kill = b.kill

/-- The facts a liveness run can ever hold: the uses of all blocks. -/
def factUniverse (fn : BlockList α) : Assignments α :=
  fn.foldr (fun b acc => DataFlowUtil.uses b ∪ acc) ∅

/-- The total size of the boundary sets of the first `n` blocks. -/
def weight (n : Nat) (s : BlockStates α) : Nat :=
  ∑ i ∈ Finset.range n, ((s i).inSet.card + (s i).outSet.card)

/-- The number of passes of a liveness run that can change something. -/
def passBound (fn : BlockList α) : Nat :=
  fn.length * (2 * (factUniverse fn).card)

/-- The invariant of a liveness run on `fn`: visiting any block of `fn` can
only enlarge its state, and every set lies in the fact universe. -/
def Good (fn : BlockList α) (s : BlockStates α) : Prop :=
  (∀ i b, fn[i]? = some b → BlockState.le (s i) (DataFlowPass.step DcePass.pass s i b)) ∧
  (∀ i, (s i).inSet ⊆ factUniverse fn ∧ (s i).outSet ⊆ factUniverse fn ∧
    (s i).gen ⊆ factUniverse fn)

/-- What every table of a liveness run on `fn` satisfies: `gen` and `kill`
hold the uses and the definitions of the block, and the `out` set of a block
without successors is still the empty top value. -/
def Live (fn : BlockList α) (s : BlockStates α) : Prop :=
  ∀ i b, fn[i]? = some b →
    (s i).gen = DataFlowUtil.uses b ∧ (s i).kill = DataFlowUtil.defines b ∧
    (b.succs = [] → (s i).outSet = ∅)

end llvm

/-! ## Local optimisations (`LocalOpts.cpp`) -/

namespace LocalOpts

/-- The integer opcodes of `BinaryOperator::BinaryOps` the pass can meet. -/
inductive BinaryOps where
  | Add
  | Sub
  | Mul
  | UDiv
  | SDiv
  | Shl
  | LShr
  | AShr
  deriving DecidableEq, Repr

/-- An operand of type `i32` as the pass tells operands apart:
a `ConstantInt` (with its zero-extended value, `getZExtValue()`), a value
that is neither a constant nor an instruction (a function argument), an
instruction that is not a binary operator (its opcode and the slot holding
its result), or a binary operator with its two operands. -/
inductive Value where
  | constantInt (value : Nat)
  | argument (slot : Nat)
  | instruction (opcode : Nat) (slot : Nat)
  | binaryOperator (opcode : BinaryOps) (left right : Value)
  deriving DecidableEq, Repr

/-- A binary operator instruction: `getOpcode()`, `getOperand(0)`,
`getOperand(1)`. -/
structure BinaryOperator where
  opcode : BinaryOps
  left : Value
  right : Value
  deriving DecidableEq, Repr

/-- The instruction as a value (an operand of later instructions). -/
def BinaryOperator.toValue (b : BinaryOperator) : Value :=
  Value.binaryOperator b.opcode b.left b.right

/-- Whether `dyn_cast<Instruction>(v)` is non-null. -/
def isInstruction : Value → Bool
  | Value.instruction _ _ => true
  | Value.binaryOperator _ _ _ => true
  | _ => false

/-- The result of `dyn_cast<ConstantInt>(v)`, as the zero-extended value of
the constant, when it is non-null. -/
def constantValue : Value → Option Nat
  | Value.constantInt value => some value
  | _ => none

/-- `Instruction::isSameOperationAs` of LLVM on two operands that are
instructions: the same opcode and the same operand types (all operands are
`i32` here).  The operands themselves are not compared. -/
def isSameOperationAs : Value → Value → Bool
  | Value.binaryOperator op1 _ _, Value.binaryOperator op2 _ _ => decide (op1 = op2)
  | Value.instruction op1 _, Value.instruction op2 _ => decide (op1 = op2)
  | _, _ => false

/-! ### `LocalOpts::log2` and the power-of-two guard -/

/-- The loop of `LocalOpts::log2`: `while (x >>= 1) { i++; }`, returning `i`
when the loop exits. -/
def log2Loop (x i : Nat) : Nat :=
  if x >>> 1 ≠ 0 then log2Loop (x >>> 1) (i + 1) else i
termination_by x
decreasing_by
  simp only [Nat.shiftRight_eq_div_pow, pow_one] at *
  omega

/-- `LocalOpts::log2`: `int i = 0; while (x >>= 1) { i++; } return i;` for an
unsigned 64-bit `x` (`x < 2 ^ 64`; the counter stays below 64). -/
def log2 (x : Nat) : Nat :=
  log2Loop x 0

/-- The C++ expression `1 << n` with the `int` literal `1` (32 bits) and an
unsigned 64-bit count `n`: the result is an `int`.  A count of 32 or more is
undefined behaviour (`none`); `1 << 31` is the value `2 ^ 31` converted to
`int`, which is `-2 ^ 31`. -/
def shiftOne (n : Nat) : Option Int :=
  if n < 32 then
    some (if n < 31 then (2 : Int) ^ n else (2 : Int) ^ n - (2 : Int) ^ 32)
  else none

/-- The conversion of an `int` to `uint64_t` that `==` applies to its right
operand. -/
def toUInt64 (z : Int) : Nat :=
  (z % (2 : Int) ^ 64).toNat

/-- The guard `value == (1 << log2Value)` of `strengthReduction`, for
`log2Value = log2(value)`; `none` when the shift is undefined. -/
def shiftGuard (value : Nat) : Option Bool :=
  (shiftOne (log2 value)).map fun s => decide (value = toUInt64 s)

/-! ### `LocalOpts::strengthReduction` -/

/-- The body of the loop of `LocalOpts::strengthReduction` for one binary
operator: the instruction that stands in its place afterwards (the operator
itself when nothing is replaced), or `none` when the guard is undefined. -/
def strengthReduction (binOp : BinaryOperator) : Option BinaryOperator :=
  match binOp.opcode with
  | BinaryOps.Mul =>
    match isInstruction binOp.left, constantValue binOp.right with
    | true, some value =>
      (shiftGuard value).map fun g =>
        if g then ⟨BinaryOps.Shl, binOp.left, Value.constantInt (log2 value)⟩ else binOp
    | _, _ =>
      match constantValue binOp.left, isInstruction binOp.right with
      | some value, true =>
        (shiftGuard value).map fun g =>
          if g then ⟨BinaryOps.Shl, binOp.right, Value.constantInt (log2 value)⟩ else binOp
      | _, _ => some binOp
  | BinaryOps.SDiv =>
    match isInstruction binOp.left, constantValue binOp.right with
    | true, some value =>
      (shiftGuard value).map fun g =>
        if g then ⟨BinaryOps.LShr, binOp.left, Value.constantInt (log2 value)⟩ else binOp
    | _, _ => some binOp
  | _ => some binOp

/-! ### `LocalOpts::algebraicIdentities` -/

/-- `ConstantInt::isOne`. -/
def isOne (value : Nat) : Bool := decide (value = 1)

/-- `ConstantInt::isZero`. -/
def isZero (value : Nat) : Bool := decide (value = 0)

/-- The body of the loop of `LocalOpts::algebraicIdentities` for one binary
operator: the value the instruction is replaced with
(`ReplaceInstWithValue`), or `none` when it is left as it is.  The erasure
of operand instructions without uses is not modelled. -/
def algebraicIdentities (binOp : BinaryOperator) : Option Value :=
  if isInstruction binOp.left && isInstruction binOp.right then
    if isSameOperationAs binOp.left binOp.right then
      if binOp.opcode = BinaryOps.Sub then some (Value.constantInt 0)
      else if binOp.opcode = BinaryOps.SDiv then some (Value.constantInt 1)
      else none
    else none
  else
    match isInstruction binOp.left, constantValue binOp.right with
    | true, some rightValue =>
      if (binOp.opcode = BinaryOps.Mul ∨ binOp.opcode = BinaryOps.SDiv) ∧ isOne rightValue = true
      then some binOp.left
      else if (binOp.opcode = BinaryOps.Add ∨ binOp.opcode = BinaryOps.Sub) ∧
          isZero rightValue = true
      then some binOp.left
      else none
    | _, _ =>
      match constantValue binOp.left, isInstruction binOp.right with
      | some leftValue, true =>
        if binOp.opcode = BinaryOps.Mul ∧ isOne leftValue = true then some binOp.right
        else if binOp.opcode = BinaryOps.Add ∧ isZero leftValue = true then some binOp.right
        else none
      | _, _ => none

/-! ### The value of an `i32` expression -/

/-- The signed reading of a 32-bit pattern. -/
def toSigned (a : Nat) : Int :=
  if a < 2 ^ 31 then (a : Int) else (a : Int) - (2 : Int) ^ 32

/-- The 32-bit pattern of an integer (two's complement). -/
def toUnsigned (z : Int) : Nat :=
  (z % (2 : Int) ^ 32).toNat

/-- The result of an `i32` binary operation on two 32-bit patterns, after
the LLVM language reference; `none` where the result is undefined or poison
(division by zero, overflowing signed division, shift by 32 or more). -/
def evalBinary (opcode : BinaryOps) (a b : Nat) : Option Nat :=
  match opcode with
  | BinaryOps.Add => some ((a + b) % 2 ^ 32)
  | BinaryOps.Sub => some (toUnsigned ((a : Int) - (b : Int)))
  | BinaryOps.Mul => some ((a * b) % 2 ^ 32)
  | BinaryOps.UDiv => if b = 0 then none else some (a / b)
  | BinaryOps.SDiv =>
    if b = 0 ∨ (toSigned a = -(2 : Int) ^ 31 ∧ toSigned b = -1) then none
    else some (toUnsigned ((toSigned a).tdiv (toSigned b)))
  | BinaryOps.Shl => if b < 32 then some ((a <<< b) % 2 ^ 32) else none
  | BinaryOps.LShr => if b < 32 then some (a >>> b) else none
  | BinaryOps.AShr => if b < 32 then some (toUnsigned (toSigned a >>> b)) else none

/-- The value of an operand when slot `n` (an argument or the result of an
instruction that is not a binary operator) holds `env n`. -/
def eval (env : Nat → Nat) : Value → Option Nat
  | Value.constantInt value => some (value % 2 ^ 32)
  | Value.argument slot => some (env slot % 2 ^ 32)
  | Value.instruction _ slot => some (env slot % 2 ^ 32)
  | Value.binaryOperator opcode left right =>
    match eval env left, eval env right with
    | some a, some b => evalBinary opcode a b
    | _, _ => none

end LocalOpts

/-! # Properties -/

namespace llvm
open DataFlowPass

set_option linter.unusedSectionVars false

variable {α : Type} [DecidableEq α]

/-! ## One visit, one pass, the loop -/

theorem setState_same (s : BlockStates α) (i : Nat) : setState s i (s i) = s := by
  funext j
  by_cases h : j = i
  · simp [setState, h]
  · simp [setState, h]

theorem setState_at (s : BlockStates α) (i : Nat) (v : BlockState α) :
    setState s i v i = v := by
  simp [setState]

theorem setState_other (s : BlockStates α) (i j : Nat) (v : BlockState α) (h : j ≠ i) :
    setState s i v j = s j := by
  simp [setState, h]

theorem step_gen (p : DataFlowPass α) (s : BlockStates α) (i : Nat) (b : BasicBlock α) :
    (step p s i b).gen = (s i).gen := by
  unfold step
  cases p.direction <;> rfl

theorem step_kill (p : DataFlowPass α) (s : BlockStates α) (i : Nat) (b : BasicBlock α) :
    (step p s i b).kill = (s i).kill := by
  unfold step
  cases p.direction <;> rfl

theorem blockState_eq {a b : BlockState α} (h1 : a.inSet = b.inSet)
    (h2 : a.outSet = b.outSet) (h3 : a.gen = b.gen) (h4 : a.kill = b.kill) : a = b := by
  cases a
  cases b
  simp_all

/-- A visit that leaves the flag down found it down and changed nothing. -/
theorem visit_flag_false (p : DataFlowPass α) (st : BlockStates α × Bool)
    (ib : Nat × BasicBlock α) (h : (visit p st ib).2 = false) :
    st.2 = false ∧ (visit p st ib).1 = st.1 ∧ step p st.1 ib.1 ib.2 = st.1 ib.1 := by
  simp only [visit, Bool.or_eq_false_iff, decide_eq_false_iff_not, not_not] at h
  obtain ⟨h0, h1, h2⟩ := h
  have hs : step p st.1 ib.1 ib.2 = st.1 ib.1 :=
    blockState_eq h1 h2 (step_gen p st.1 ib.1 ib.2) (step_kill p st.1 ib.1 ib.2)
  refine ⟨h0, ?_, hs⟩
  simp only [visit]
  rw [hs]
  exact setState_same st.1 ib.1

/-- A sequence of visits that leaves the flag down changed nothing, and every
visited block already had the state a visit computes for it. -/
theorem foldl_visit_flag_false (p : DataFlowPass α) (l : List (Nat × BasicBlock α)) :
    ∀ st : BlockStates α × Bool, (l.foldl (visit p) st).2 = false →
      st.2 = false ∧ (l.foldl (visit p) st).1 = st.1 ∧
      ∀ ib ∈ l, step p st.1 ib.1 ib.2 = st.1 ib.1 := by
  induction l with
  | nil => intro st h; exact ⟨h, rfl, by simp⟩
  | cons x xs ih =>
    intro st h
    rw [List.foldl_cons] at h ⊢
    obtain ⟨h1, h2, h3⟩ := ih (visit p st x) h
    obtain ⟨g1, g2, g3⟩ := visit_flag_false p st x h1
    refine ⟨g1, by rw [h2, g2], ?_⟩
    intro ib hib
    rcases List.mem_cons.1 hib with rfl | hmem
    · exact g3
    · have := h3 ib hmem
      rwa [g2] at this

/-- The list of visits of a pass, in the direction of the analysis. -/
theorem traverse_eq_foldl (p : DataFlowPass α) (fn : BlockList α) (s : BlockStates α) :
    ∃ l : List (Nat × BasicBlock α), (∀ ib, ib ∈ l ↔ fn[ib.1]? = some ib.2) ∧
      traverse p fn s = l.foldl (visit p) (s, false) := by
  unfold DataFlowPass.traverse
  cases p.direction
  · exact ⟨fn.enum, fun ib => List.mem_enum_iff_getElem?, rfl⟩
  · exact ⟨fn.enum.reverse, fun ib => by rw [List.mem_reverse]; exact List.mem_enum_iff_getElem?,
      rfl⟩

/-- A pass that reports no change returns the table it was given, and every
block of the function satisfies its dataflow equation in that table. -/
theorem traverse_flag_false (p : DataFlowPass α) (fn : BlockList α) (s : BlockStates α)
    (h : (traverse p fn s).2 = false) :
    (traverse p fn s).1 = s ∧ ∀ i b, fn[i]? = some b → step p s i b = s i := by
  obtain ⟨l, hl, e⟩ := traverse_eq_foldl p fn s
  rw [e] at h ⊢
  obtain ⟨_, h2, h3⟩ := foldl_visit_flag_false p l (s, false) h
  exact ⟨h2, fun i b hb => h3 (i, b) ((hl (i, b)).2 hb)⟩

/-- The loop returns only a table on which a further pass changes nothing. -/
theorem iterate_some_fixed (pass : BlockStates α → BlockStates α × Bool)
    (hp : ∀ s, (pass s).2 = false → (pass s).1 = s) :
    ∀ (fuel : Nat) (s r : BlockStates α), iterate pass fuel s = some r → pass r = (r, false) := by
  intro fuel
  induction fuel with
  | zero => intro s r h; simp [iterate] at h
  | succ n ih =>
    intro s r h
    rw [iterate] at h
    rcases hps : pass s with ⟨s', _ | _⟩
    · rw [hps] at h
      simp only [Option.some.injEq] at h
      have h1 := hp s (by rw [hps])
      rw [hps] at h1
      simp only at h1
      subst h1
      subst h
      exact hps
    · rw [hps] at h
      exact ih s' r h

/-- An invariant of the passes holds for the table the loop returns. -/
theorem iterate_invariant (pass : BlockStates α → BlockStates α × Bool)
    (P : BlockStates α → Prop) (hP : ∀ s, P s → P (pass s).1) :
    ∀ (fuel : Nat) (s r : BlockStates α), P s → iterate pass fuel s = some r → P r := by
  intro fuel
  induction fuel with
  | zero => intro s r _ h; simp [iterate] at h
  | succ n ih =>
    intro s r hs h
    rw [iterate] at h
    have h2 := hP s hs
    rcases hps : pass s with ⟨s', _ | _⟩
    · rw [hps] at h h2
      simp only [Option.some.injEq] at h
      subst h
      exact h2
    · rw [hps] at h h2
      exact ih s' r h2 h

/-! ## The liveness configuration: monotone steps on a bounded domain -/

theorem mem_foldl_union (xs : List (Assignments α)) :
    ∀ (a : Assignments α) (x : α),
      x ∈ xs.foldl (fun acc s => meetFunction Meet.UNION s acc) a ↔ x ∈ a ∨ ∃ t ∈ xs, x ∈ t := by
  induction xs with
  | nil => intro a x; simp
  | cons y ys ih =>
    intro a x
    rw [List.foldl_cons, ih]
    simp only [meetFunction, Finset.mem_union, List.mem_cons, exists_eq_or_imp]
    tauto

theorem mem_meetOver_union (l : List (Assignments α)) (d : Assignments α) (x : α) :
    x ∈ (meetOver Meet.UNION l).getD d ↔ (l = [] ∧ x ∈ d) ∨ ∃ t ∈ l, x ∈ t := by
  cases l with
  | nil => simp [meetOver]
  | cons y ys =>
    simp only [meetOver, Option.getD_some, mem_foldl_union, List.mem_cons, exists_eq_or_imp]
    simp

theorem dce_step_out (s : BlockStates α) (i : Nat) (b : BasicBlock α) (x : α) :
    x ∈ (step DcePass.pass s i b).outSet ↔
      (b.succs = [] ∧ x ∈ (s i).outSet) ∨ ∃ j ∈ b.succs, x ∈ (s j).inSet := by
  show x ∈ (meetOver Meet.UNION (b.succs.map fun j => (s j).inSet)).getD (s i).outSet ↔ _
  rw [mem_meetOver_union]
  simp

theorem dce_step_in (s : BlockStates α) (i : Nat) (b : BasicBlock α) :
    (step DcePass.pass s i b).inSet =
      ((step DcePass.pass s i b).outSet \ (s i).kill) ∪ (s i).gen := rfl

theorem BlockState.le_refl (a : BlockState α) : BlockState.le a a :=
  ⟨Finset.Subset.refl _, Finset.Subset.refl _, rfl, rfl⟩

theorem BlockState.le_trans {a b c : BlockState α} (h1 : BlockState.le a b)
    (h2 : BlockState.le b c) : BlockState.le a c :=
  ⟨h1.1.trans h2.1, h1.2.1.trans h2.2.1, h1.2.2.1.trans h2.2.2.1, h1.2.2.2.trans h2.2.2.2⟩

/-- A liveness step is monotone in the table it reads. -/
theorem dce_step_mono (s t : BlockStates α) (hst : ∀ j, BlockState.le (s j) (t j))
    (i : Nat) (b : BasicBlock α) :
    BlockState.le (step DcePass.pass s i b) (step DcePass.pass t i b) := by
  have hout : (step DcePass.pass s i b).outSet ⊆ (step DcePass.pass t i b).outSet := by
    intro x hx
    rw [dce_step_out] at hx ⊢
    rcases hx with ⟨h1, h2⟩ | ⟨j, hj, hx⟩
    · exact Or.inl ⟨h1, (hst i).2.1 h2⟩
    · exact Or.inr ⟨j, hj, (hst j).1 hx⟩
  refine ⟨?_, hout, ?_, ?_⟩
  · rw [dce_step_in, dce_step_in, (hst i).2.2.1, (hst i).2.2.2]
    exact Finset.union_subset_union (Finset.sdiff_subset_sdiff hout (Finset.Subset.refl _))
      (Finset.Subset.refl _)
  · rw [step_gen, step_gen]; exact (hst i).2.2.1
  · rw [step_kill, step_kill]; exact (hst i).2.2.2

theorem good_visit (fn : BlockList α) (s : BlockStates α) (hs : Good fn s)
    (j : Nat) (bj : BasicBlock α) (hj : fn[j]? = some bj) :
    Good fn (setState s j (step DcePass.pass s j bj)) ∧
    ∀ k, BlockState.le (s k) (setState s j (step DcePass.pass s j bj) k) := by
  have hle : ∀ k, BlockState.le (s k) (setState s j (step DcePass.pass s j bj) k) := by
    intro k
    by_cases hk : k = j
    · subst hk
      rw [setState_at]
      exact hs.1 k bj hj
    · rw [setState_other _ _ _ _ hk]
      exact BlockState.le_refl _
  refine ⟨⟨?_, ?_⟩, hle⟩
  · intro i b hb
    refine BlockState.le_trans ?_ (dce_step_mono _ _ hle i b)
    by_cases hi : i = j
    · subst hi
      rw [hj] at hb
      cases hb
      rw [setState_at]
      exact BlockState.le_refl _
    · rw [setState_other _ _ _ _ hi]
      exact hs.1 i b hb
  · intro i
    by_cases hi : i = j
    · subst hi
      rw [setState_at]
      have hout : (step DcePass.pass s i bj).outSet ⊆ factUniverse fn := by
        intro x hx
        rw [dce_step_out] at hx
        rcases hx with ⟨_, h2⟩ | ⟨k, _, hx⟩
        · exact (hs.2 i).2.1 h2
        · exact (hs.2 k).1 hx
      refine ⟨?_, hout, ?_⟩
      · rw [dce_step_in]
        exact Finset.union_subset (Finset.sdiff_subset.trans hout) (hs.2 i).2.2
      · rw [step_gen]; exact (hs.2 i).2.2
    · rw [setState_other _ _ _ _ hi]
      exact hs.2 i

theorem weight_mono (n : Nat) (s t : BlockStates α) (h : ∀ k, BlockState.le (s k) (t k)) :
    weight n s ≤ weight n t := by
  unfold weight
  apply Finset.sum_le_sum
  intro i _
  exact Nat.add_le_add (Finset.card_le_card (h i).1) (Finset.card_le_card (h i).2.1)

theorem weight_lt (n : Nat) (s t : BlockStates α) (h : ∀ k, BlockState.le (s k) (t k))
    (j : Nat) (hj : j < n)
    (hne : (t j).inSet ≠ (s j).inSet ∨ (t j).outSet ≠ (s j).outSet) :
    weight n s < weight n t := by
  unfold weight
  apply Finset.sum_lt_sum
  · intro i _
    exact Nat.add_le_add (Finset.card_le_card (h i).1) (Finset.card_le_card (h i).2.1)
  · refine ⟨j, Finset.mem_range.2 hj, ?_⟩
    have h1 := Finset.card_le_card (h j).1
    have h2 := Finset.card_le_card (h j).2.1
    rcases hne with hne | hne
    · have : (s j).inSet.card < (t j).inSet.card :=
        Finset.card_lt_card (Finset.ssubset_iff_subset_ne.2 ⟨(h j).1, fun e => hne e.symm⟩)
      omega
    · have : (s j).outSet.card < (t j).outSet.card :=
        Finset.card_lt_card (Finset.ssubset_iff_subset_ne.2 ⟨(h j).2.1, fun e => hne e.symm⟩)
      omega

theorem weight_le_bound (fn : BlockList α) (s : BlockStates α) (hs : Good fn s) :
    weight fn.length s ≤ passBound fn := by
  unfold weight passBound
  have h : ∀ i ∈ Finset.range fn.length,
      (s i).inSet.card + (s i).outSet.card ≤ 2 * (factUniverse fn).card := by
    intro i _
    have h1 := Finset.card_le_card (hs.2 i).1
    have h2 := Finset.card_le_card (hs.2 i).2.1
    omega
  have := Finset.sum_le_card_nsmul (Finset.range fn.length) _ _ h
  simpa using this

/-- A sequence of liveness visits keeps the invariant, never shrinks the
weight, and raises the flag only with a strictly larger weight. -/
theorem good_foldl (fn : BlockList α) (l : List (Nat × BasicBlock α))
    (hl : ∀ ib ∈ l, fn[ib.1]? = some ib.2) :
    ∀ st : BlockStates α × Bool, Good fn st.1 →
      Good fn (l.foldl (visit DcePass.pass) st).1 ∧
      weight fn.length st.1 ≤ weight fn.length (l.foldl (visit DcePass.pass) st).1 ∧
      ((l.foldl (visit DcePass.pass) st).2 = true →
        st.2 = true ∨ weight fn.length st.1 < weight fn.length (l.foldl (visit DcePass.pass) st).1) := by
  induction l with
  | nil => intro st h; exact ⟨h, Nat.le_refl _, fun h2 => Or.inl h2⟩
  | cons x xs ih =>
    intro st hst
    rw [List.foldl_cons]
    have hx : fn[x.1]? = some x.2 := hl x (List.mem_cons_self _ _)
    obtain ⟨hg, hle⟩ := good_visit fn st.1 hst x.1 x.2 hx
    have hlt : x.1 < fn.length := by
      rcases Nat.lt_or_ge x.1 fn.length with h | h
      · exact h
      · rw [List.getElem?_eq_none h] at hx
        cases hx
    obtain ⟨i1, i2, i3⟩ := ih (fun ib hib => hl ib (List.mem_cons_of_mem _ hib))
      (visit DcePass.pass st x) hg
    have hw : weight fn.length st.1 ≤ weight fn.length (visit DcePass.pass st x).1 :=
      weight_mono _ _ _ hle
    refine ⟨i1, hw.trans i2, ?_⟩
    intro hflag
    rcases i3 hflag with h | h
    · simp only [visit, Bool.or_eq_true, decide_eq_true_eq] at h
      rcases h with h | h
      · exact Or.inl h
      · right
        refine Nat.lt_of_lt_of_le ?_ i2
        refine weight_lt _ _ _ hle x.1 hlt ?_
        show (setState st.1 x.1 (step DcePass.pass st.1 x.1 x.2) x.1).inSet ≠ _ ∨
          (setState st.1 x.1 (step DcePass.pass st.1 x.1 x.2) x.1).outSet ≠ _
        rw [setState_at]
        exact h
    · exact Or.inr (Nat.lt_of_le_of_lt hw h)

theorem good_traverse (fn : BlockList α) (s : BlockStates α) (hs : Good fn s) :
    Good fn (traverse DcePass.pass fn s).1 ∧
    ((traverse DcePass.pass fn s).2 = true →
      weight fn.length s < weight fn.length (traverse DcePass.pass fn s).1) := by
  obtain ⟨l, hl, e⟩ := traverse_eq_foldl DcePass.pass fn s
  rw [e]
  obtain ⟨h1, _, h3⟩ := good_foldl fn l (fun ib hib => (hl ib).1 hib) (s, false) hs
  refine ⟨h1, fun hf => ?_⟩
  rcases h3 hf with h | h
  · cases h
  · exact h

/-- The liveness loop stops within the fuel the weight leaves room for. -/
theorem dce_iterate_terminates (fn : BlockList α) :
    ∀ (fuel : Nat) (s : BlockStates α), Good fn s →
      passBound fn - weight fn.length s < fuel →
      ∃ r, iterate (traverse DcePass.pass fn) fuel s = some r := by
  intro fuel
  induction fuel with
  | zero => intro s _ h; omega
  | succ n ih =>
    intro s hs hfuel
    rw [iterate]
    obtain ⟨hg, hw⟩ := good_traverse fn s hs
    rcases hps : traverse DcePass.pass fn s with ⟨s', _ | _⟩
    · exact ⟨s', rfl⟩
    · rw [hps] at hg hw
      have h1 := hw rfl
      have h2 := weight_le_bound fn s' hg
      simp only at h1 h2
      exact ih s' hg (by omega)

theorem uses_subset_factUniverse (fn : BlockList α) (b : BasicBlock α) (hb : b ∈ fn) :
    DataFlowUtil.uses b ⊆ factUniverse fn := by
  unfold factUniverse
  induction fn with
  | nil => cases hb
  | cons c cs ih =>
    rw [List.foldr_cons]
    rcases List.mem_cons.1 hb with rfl | h
    · exact Finset.subset_union_left
    · exact (ih h).trans Finset.subset_union_right

theorem dce_init_state (fn : BlockList α) (i : Nat) :
    computeGenKill DcePass.pass fn (initStates DcePass.pass fn) i =
      match fn[i]? with
      | some b => ⟨∅, ∅, DataFlowUtil.uses b, DataFlowUtil.defines b⟩
      | none => ⟨∅, ∅, ∅, ∅⟩ := by
  unfold computeGenKill initStates
  cases fn[i]? <;> rfl

theorem good_init (fn : BlockList α) :
    Good fn (computeGenKill DcePass.pass fn (initStates DcePass.pass fn)) := by
  refine ⟨?_, ?_⟩
  · intro i b hb
    refine ⟨?_, ?_, ?_, ?_⟩
    · rw [dce_init_state, hb]; exact Finset.empty_subset _
    · rw [dce_init_state, hb]; exact Finset.empty_subset _
    · rw [step_gen]
    · rw [step_kill]
  · intro i
    rw [dce_init_state]
    rcases hb : fn[i]? with _ | b
    · exact ⟨Finset.empty_subset _, Finset.empty_subset _, Finset.empty_subset _⟩
    · exact ⟨Finset.empty_subset _, Finset.empty_subset _,
        uses_subset_factUniverse fn b (List.getElem?_mem hb)⟩

/-- A liveness run returns a table whenever the fuel exceeds `passBound`. -/
theorem dce_run_terminates (fn : BlockList α) (fuel : Nat) (h : passBound fn < fuel) :
    ∃ r, runOnBlocks DcePass.pass fuel fn = some r := by
  unfold runOnBlocks
  exact dce_iterate_terminates fn fuel _ (good_init fn) (by omega)

/-! ## The table a liveness run returns -/

theorem foldl_visit_invariant (p : DataFlowPass α) (fn : BlockList α)
    (P : BlockStates α → Prop)
    (hP : ∀ s i b, fn[i]? = some b → P s → P (setState s i (step p s i b)))
    (l : List (Nat × BasicBlock α)) (hl : ∀ ib ∈ l, fn[ib.1]? = some ib.2) :
    ∀ st : BlockStates α × Bool, P st.1 → P (l.foldl (visit p) st).1 := by
  induction l with
  | nil => intro st h; exact h
  | cons x xs ih =>
    intro st h
    rw [List.foldl_cons]
    exact ih (fun ib hib => hl ib (List.mem_cons_of_mem _ hib)) _
      (hP st.1 x.1 x.2 (hl x (List.mem_cons_self _ _)) h)

theorem traverse_invariant (p : DataFlowPass α) (fn : BlockList α)
    (P : BlockStates α → Prop)
    (hP : ∀ s i b, fn[i]? = some b → P s → P (setState s i (step p s i b)))
    (s : BlockStates α) (h : P s) : P (traverse p fn s).1 := by
  obtain ⟨l, hl, e⟩ := traverse_eq_foldl p fn s
  rw [e]
  exact foldl_visit_invariant p fn P hP l (fun ib hib => (hl ib).1 hib) (s, false) h

theorem live_visit (fn : BlockList α) (s : BlockStates α) (i : Nat) (b : BasicBlock α)
    (hb : fn[i]? = some b) (hs : Live fn s) :
    Live fn (setState s i (step DcePass.pass s i b)) := by
  intro k c hc
  by_cases hk : k = i
  · subst hk
    rw [hb] at hc
    cases hc
    rw [setState_at, step_gen, step_kill]
    refine ⟨(hs k b hb).1, (hs k b hb).2.1, fun hsucc => ?_⟩
    ext x
    rw [dce_step_out, (hs k b hb).2.2 hsucc, hsucc]
    simp
  · rw [setState_other _ _ _ _ hk]
    exact hs k c hc

theorem live_init (fn : BlockList α) :
    Live fn (computeGenKill DcePass.pass fn (initStates DcePass.pass fn)) := by
  intro i b hb
  rw [dce_init_state, hb]
  exact ⟨rfl, rfl, fun _ => rfl⟩

/-- The table a liveness run returns solves the liveness equations: the
`out` set of a block is the union of the `in` sets of its successors, and its
`in` set is `(out ∖ defines) ∪ uses`. -/
theorem dce_result_equations (fn : BlockList α) (fuel : Nat) (r : BlockStates α)
    (h : runOnBlocks DcePass.pass fuel fn = some r) (i : Nat) (b : BasicBlock α)
    (hb : fn[i]? = some b) :
    (r i).inSet = ((r i).outSet \ DataFlowUtil.defines b) ∪ DataFlowUtil.uses b ∧
    ∀ x, x ∈ (r i).outSet ↔ ∃ j ∈ b.succs, x ∈ (r j).inSet := by
  have hfix := iterate_some_fixed (traverse DcePass.pass fn)
    (fun s hs => (traverse_flag_false DcePass.pass fn s hs).1) fuel _ r h
  have hlive : Live fn r :=
    iterate_invariant (traverse DcePass.pass fn) (Live fn)
      (fun s hs => traverse_invariant DcePass.pass fn (Live fn)
        (fun s i b hb hs => live_visit fn s i b hb hs) s hs)
      fuel _ r (live_init fn) h
  have hstep := (traverse_flag_false DcePass.pass fn r (by rw [hfix])).2 i b hb
  obtain ⟨hg, hk, ho⟩ := hlive i b hb
  constructor
  · have := dce_step_in r i b
    rw [hstep, hg, hk] at this
    exact this
  · intro x
    have := dce_step_out r i b x
    rw [hstep] at this
    rw [this]
    constructor
    · rintro (⟨h1, h2⟩ | h2)
      · rw [ho h1] at h2
        simp at h2
      · exact h2
    · exact Or.inr

theorem eq_some_getD {β : Type} (x : Option β) (d : β) (h : x.isSome = true) :
    x = some (x.getD d) := by
  cases x with
  | none => cases h
  | some v => rfl

/-! ## The transfer function and the meet -/

theorem transferFn_output (m : Meet) (c : TransferCall α) :
    (DcePass.transferFn m c).output = meetFunction m c.generate (c.input \ c.kill) := rfl

theorem transferFn_union_output (c : TransferCall α) :
    (DcePass.transferFn Meet.UNION c).output = (c.input \ c.kill) ∪ c.generate := rfl

/-- C1: with the UNION meet, `DcePass::transferFn` leaves `output` equal to
`(input ∖ kill) ∪ generate`, whatever `output` held before the call, and
leaves `generate`, `kill` and `input` as they were. -/
theorem C1_transferFn_kill_then_gen (G K I O : Assignments α) :
    (DcePass.transferFn Meet.UNION ⟨G, K, I, O⟩).output = (I \ K) ∪ G ∧
    (∀ O2 : Assignments α, (DcePass.transferFn Meet.UNION ⟨G, K, I, O2⟩).output
        = (DcePass.transferFn Meet.UNION ⟨G, K, I, O⟩).output) ∧
    (DcePass.transferFn Meet.UNION ⟨G, K, I, O⟩).generate = G ∧
    (DcePass.transferFn Meet.UNION ⟨G, K, I, O⟩).kill = K ∧
    (DcePass.transferFn Meet.UNION ⟨G, K, I, O⟩).input = I :=
  ⟨rfl, fun _ => rfl, rfl, rfl, rfl⟩

/-- C6: `DcePass::transferFn` is monotone in its input: a smaller input
gives a smaller output, for the same generate and kill sets (with the UNION
meet of the pass, and with the INTERSECTION meet as well). -/
theorem C6_transferFn_monotone (m : Meet) (G K I1 I2 O1 O2 : Assignments α) (h : I1 ⊆ I2) :
    (DcePass.transferFn m ⟨G, K, I1, O1⟩).output ⊆
      (DcePass.transferFn m ⟨G, K, I2, O2⟩).output := by
  rw [transferFn_output, transferFn_output]
  have hsd : I1 \ K ⊆ I2 \ K := Finset.sdiff_subset_sdiff h (Finset.Subset.refl K)
  cases m with
  | UNION => exact Finset.union_subset_union hsd (Finset.Subset.refl G)
  | INTERSECTION => exact Finset.inter_subset_inter hsd (Finset.Subset.refl G)

theorem C6_transferFn_monotone_witness :
    (({1} : Assignments Nat) ⊆ {1, 2, 3}) ∧
    (DcePass.transferFn Meet.UNION ⟨{5}, {2}, ({1} : Assignments Nat), ∅⟩).output ⊆
      (DcePass.transferFn Meet.UNION ⟨{5}, {2}, {1, 2, 3}, {7}⟩).output :=
  ⟨by decide, C6_transferFn_monotone Meet.UNION {5} {2} {1} {1, 2, 3} ∅ {7} (by decide)⟩

/-- C7: the dead-code pass is configured BACKWARDS with the UNION meet, and
`DcePass::top` and `DcePass::init` return the empty fact set for every
block. -/
theorem C7_dce_configuration :
    (DcePass.pass : DataFlowPass α).direction = Direction.BACKWARDS ∧
    (DcePass.pass : DataFlowPass α).meet = Meet.UNION ∧
    (∀ block : BasicBlock α, DcePass.top block = ∅ ∧ DcePass.init block = ∅) ∧
    (∀ (i : Nat) (block : BasicBlock α),
      (DcePass.pass : DataFlowPass α).top i block = ∅ ∧
      (DcePass.pass : DataFlowPass α).init i block = ∅) :=
  ⟨rfl, rfl, fun _ => ⟨rfl, rfl⟩, fun _ _ => ⟨rfl, rfl⟩⟩

/-- C9: the meet is idempotent: merging a set into an equal set leaves it
unchanged, for UNION and for INTERSECTION. -/
theorem C9_meet_idempotent (A : Assignments α) :
    meetFunction Meet.UNION A A = A ∧ meetFunction Meet.INTERSECTION A A = A ∧
    meetFn Meet.UNION A A = A ∧ meetFn Meet.INTERSECTION A A = A := by
  simp [meetFn, meetFunction]

/-! ## The engine run -/

/-- C4: fixpoint stability.  Once the engine run has returned its table, one
more full traversal pass reports no change and leaves `in` and `out` of every
block as they are. -/
theorem C4_fixpoint_stability (p : DataFlowPass α) (fn : BlockList α) (fuel : Nat)
    (r : BlockStates α) (h : runOnBlocks p fuel fn = some r) :
    traverse p fn r = (r, false) ∧
    ∀ i, ((traverse p fn r).1 i).inSet = (r i).inSet ∧
      ((traverse p fn r).1 i).outSet = (r i).outSet := by
  have hfix := iterate_some_fixed (traverse p fn)
    (fun s hs => (traverse_flag_false p fn s hs).1) fuel _ r h
  refine ⟨hfix, fun i => ?_⟩
  rw [hfix]
  exact ⟨rfl, rfl⟩

theorem C4_fixpoint_stability_witness :
    runOnBlocks DcePass.pass 51 loopGraph = some loopRun ∧
    (traverse DcePass.pass loopGraph loopRun = (loopRun, false) ∧
    ∀ i, ((traverse DcePass.pass loopGraph loopRun).1 i).inSet = (loopRun i).inSet ∧
      ((traverse DcePass.pass loopGraph loopRun).1 i).outSet = (loopRun i).outSet) :=
  ⟨eq_some_getD _ _ (by decide),
    C4_fixpoint_stability DcePass.pass loopGraph 51 loopRun (eq_some_getD _ _ (by decide))⟩

/-- C5: termination of the liveness configuration.  For every block list
(loops, unreachable blocks and all) the loop stops: with more than
`passBound fn` passes allowed the run returns a table, and a pass over that
table produces no change. -/
theorem C5_liveness_terminates (fn : BlockList α) (fuel : Nat) (h : passBound fn < fuel) :
    ∃ r, runOnBlocks DcePass.pass fuel fn = some r ∧
      traverse DcePass.pass fn r = (r, false) := by
  obtain ⟨r, hr⟩ := dce_run_terminates fn fuel h
  exact ⟨r, hr, iterate_some_fixed (traverse DcePass.pass fn)
    (fun s hs => (traverse_flag_false DcePass.pass fn s hs).1) fuel _ r hr⟩

theorem C5_liveness_terminates_witness :
    passBound loopGraph < 51 ∧
    ∃ r, runOnBlocks DcePass.pass 51 loopGraph = some r ∧
      traverse DcePass.pass loopGraph r = (r, false) :=
  ⟨by decide, C5_liveness_terminates loopGraph 51 (by decide)⟩

/-- C2: the chain `A → B → C`, where `A` defines `x`, `B` uses `x` and
defines `y`, and `C` uses neither.  The liveness run converges, `y` is not in
`out(B)` and `x` is in `in(B)`. -/
theorem C2_liveness_chain (ia ib ic : List (Instruction α)) (x y : α) (fuel : Nat)
    (_hAx : x ∈ DataFlowUtil.defines (⟨[], [1], ia⟩ : BasicBlock α))
    (hBx : x ∈ DataFlowUtil.uses (⟨[0], [2], ib⟩ : BasicBlock α))
    (_hBy : y ∈ DataFlowUtil.defines (⟨[0], [2], ib⟩ : BasicBlock α))
    (_hCx : x ∉ DataFlowUtil.uses (⟨[1], [], ic⟩ : BasicBlock α))
    (hCy : y ∉ DataFlowUtil.uses (⟨[1], [], ic⟩ : BasicBlock α))
    (hfuel : passBound (chain ia ib ic) < fuel) :
    ∃ r, runOnBlocks DcePass.pass fuel (chain ia ib ic) = some r ∧
      y ∉ (r 1).outSet ∧ x ∈ (r 1).inSet := by
  obtain ⟨r, hr⟩ := dce_run_terminates (chain ia ib ic) fuel hfuel
  refine ⟨r, hr, ?_, ?_⟩
  · obtain ⟨_, hB⟩ := dce_result_equations _ fuel r hr 1 ⟨[0], [2], ib⟩ rfl
    obtain ⟨hCin, hC⟩ := dce_result_equations _ fuel r hr 2 ⟨[1], [], ic⟩ rfl
    intro hy
    obtain ⟨j, hj, hy2⟩ := (hB y).1 hy
    simp only [List.mem_singleton] at hj
    subst hj
    rw [hCin] at hy2
    rcases Finset.mem_union.1 hy2 with h1 | h1
    · obtain ⟨k, hk, _⟩ := (hC y).1 (Finset.mem_sdiff.1 h1).1
      cases hk
    · exact hCy h1
  · obtain ⟨hBin, _⟩ := dce_result_equations _ fuel r hr 1 ⟨[0], [2], ib⟩ rfl
    rw [hBin]
    exact Finset.mem_union_right _ hBx

theorem C2_liveness_chain_witness :
    ((0 : Nat) ∈ DataFlowUtil.defines (⟨[], [1], [⟨some 0, []⟩]⟩ : BasicBlock Nat) ∧
     (0 : Nat) ∈ DataFlowUtil.uses (⟨[0], [2], [⟨some 1, [0]⟩]⟩ : BasicBlock Nat) ∧
     (1 : Nat) ∈ DataFlowUtil.defines (⟨[0], [2], [⟨some 1, [0]⟩]⟩ : BasicBlock Nat) ∧
     (0 : Nat) ∉ DataFlowUtil.uses (⟨[1], [], [⟨none, [2]⟩]⟩ : BasicBlock Nat) ∧
     (1 : Nat) ∉ DataFlowUtil.uses (⟨[1], [], [⟨none, [2]⟩]⟩ : BasicBlock Nat) ∧
     passBound (chain [⟨some 0, []⟩] [⟨some 1, [0]⟩] [⟨none, [(2 : Nat)]⟩]) < 13) ∧
    ∃ r, runOnBlocks DcePass.pass 13
        (chain [⟨some 0, []⟩] [⟨some 1, [0]⟩] [⟨none, [(2 : Nat)]⟩]) = some r ∧
      1 ∉ (r 1).outSet ∧ 0 ∈ (r 1).inSet :=
  ⟨⟨by decide, by decide, by decide, by decide, by decide, by decide⟩,
    C2_liveness_chain [⟨some 0, []⟩] [⟨some 1, [0]⟩] [⟨none, [2]⟩] 0 1 13
      (by decide) (by decide) (by decide) (by decide) (by decide) (by decide)⟩

/-- C3: a single block without predecessors and successors.  The liveness
run converges; the boundary set `out` is the top value as it is (empty), and
the opposite set `in` is one application of `DcePass::transferFn` to that top
value, which is `generate(B)`. -/
theorem C3_single_block_boundary (instrs : List (Instruction α)) (fuel : Nat)
    (hfuel : passBound (singleBlock instrs) < fuel) :
    ∃ r, runOnBlocks DcePass.pass fuel (singleBlock instrs) = some r ∧
      (r 0).outSet = DcePass.top (⟨[], [], instrs⟩ : BasicBlock α) ∧
      (r 0).outSet = ∅ ∧
      (∀ O : Assignments α, (r 0).inSet =
        (DcePass.transferFn Meet.UNION
          ⟨DcePass.generate (⟨[], [], instrs⟩ : BasicBlock α),
           DcePass.kill (⟨[], [], instrs⟩ : BasicBlock α),
           DcePass.top (⟨[], [], instrs⟩ : BasicBlock α), O⟩).output) ∧
      (r 0).inSet = DcePass.generate (⟨[], [], instrs⟩ : BasicBlock α) := by
  obtain ⟨r, hr⟩ := dce_run_terminates (singleBlock instrs) fuel hfuel
  obtain ⟨hin, hout⟩ := dce_result_equations _ fuel r hr 0 ⟨[], [], instrs⟩ rfl
  have hempty : (r 0).outSet = ∅ := by
    ext x
    rw [hout x]
    simp
  have hgen : (r 0).inSet = DataFlowUtil.uses (⟨[], [], instrs⟩ : BasicBlock α) := by
    rw [hin, hempty]
    simp
  refine ⟨r, hr, hempty, hempty, fun O => ?_, hgen⟩
  rw [hgen, transferFn_union_output]
  simp [DcePass.top, DcePass.generate]

theorem C3_single_block_boundary_witness :
    passBound (singleBlock [⟨some 1, [(0 : Nat), 2]⟩, ⟨some 3, [1, 4]⟩]) < 7 ∧
    ∃ r, runOnBlocks DcePass.pass 7 (singleBlock [⟨some 1, [(0 : Nat), 2]⟩, ⟨some 3, [1, 4]⟩])
        = some r ∧
      (r 0).outSet = DcePass.top (⟨[], [], [⟨some 1, [0, 2]⟩, ⟨some 3, [1, 4]⟩]⟩ : BasicBlock Nat) ∧
      (r 0).outSet = ∅ ∧
      (∀ O : Assignments Nat, (r 0).inSet =
        (DcePass.transferFn Meet.UNION
          ⟨DcePass.generate (⟨[], [], [⟨some 1, [0, 2]⟩, ⟨some 3, [1, 4]⟩]⟩ : BasicBlock Nat),
           DcePass.kill (⟨[], [], [⟨some 1, [0, 2]⟩, ⟨some 3, [1, 4]⟩]⟩ : BasicBlock Nat),
           DcePass.top (⟨[], [], [⟨some 1, [0, 2]⟩, ⟨some 3, [1, 4]⟩]⟩ : BasicBlock Nat),
           O⟩).output) ∧
      (r 0).inSet =
        DcePass.generate (⟨[], [], [⟨some 1, [0, 2]⟩, ⟨some 3, [1, 4]⟩]⟩ : BasicBlock Nat) :=
  ⟨by decide, C3_single_block_boundary [⟨some 1, [0, 2]⟩, ⟨some 3, [1, 4]⟩] 7 (by decide)⟩

/-- C8: `DcePass::runOnFunction` is read-only.  It returns (the run of the
engine converges), the function it leaves behind is the function it was
given, instruction sequences included, the set `lived` is still empty, and
the returned flag is `false`. -/
theorem C8_runOnFunction_read_only (fn : Function α) (fuel : Nat)
    (hfuel : passBound fn.blocks < fuel) :
    ∃ res, DcePass.runOnFunction fuel fn = some res ∧
      runOnBlocks DcePass.pass fuel fn.blocks = some res.states ∧
      res.fn = fn ∧
      res.fn.blocks.map (fun b => b.instructions) = fn.blocks.map (fun b => b.instructions) ∧
      res.lived = ∅ ∧ res.ret = false := by
  obtain ⟨r, hr⟩ := dce_run_terminates fn.blocks fuel hfuel
  refine ⟨⟨fn, r, ∅, false⟩, ?_, hr, rfl, rfl, rfl, rfl⟩
  unfold DcePass.runOnFunction
  simp only [hr]

theorem C8_runOnFunction_read_only_witness :
    passBound (Function.mk "f" loopGraph).blocks < 51 ∧
    ∃ res, DcePass.runOnFunction 51 (Function.mk "f" loopGraph) = some res ∧
      runOnBlocks DcePass.pass 51 (Function.mk "f" loopGraph).blocks = some res.states ∧
      res.fn = Function.mk "f" loopGraph ∧
      res.fn.blocks.map (fun b => b.instructions)
        = (Function.mk "f" loopGraph).blocks.map (fun b => b.instructions) ∧
      res.lived = ∅ ∧ res.ret = false :=
  ⟨by decide, C8_runOnFunction_read_only (Function.mk "f" loopGraph) 51 (by decide)⟩

/-! ## The dominance scenario -/

/-- C14: generated facts win over killed facts.  Every fact of the generate
set is in the output of `DcePass::transferFn`, also when it is in the kill
set; a fact of the kill set that is not generated is not in the output. -/
theorem C14_generated_facts_win (G K I O : Assignments α) (x : α) :
    (x ∈ G → x ∈ (DcePass.transferFn Meet.UNION ⟨G, K, I, O⟩).output) ∧
    (x ∈ K → x ∉ G → x ∉ (DcePass.transferFn Meet.UNION ⟨G, K, I, O⟩).output) := by
  rw [transferFn_union_output]
  constructor
  · intro h
    exact Finset.mem_union_right _ h
  · intro hK hG h
    rcases Finset.mem_union.1 h with h1 | h1
    · exact (Finset.mem_sdiff.1 h1).2 hK
    · exact hG h1

theorem C14_generated_facts_win_witness :
    ((1 : Nat) ∈ ({1} : Assignments Nat) ∧
      1 ∈ (DcePass.transferFn Meet.UNION ⟨{1}, {1, 2}, {2, 3}, ∅⟩).output) ∧
    ((2 : Nat) ∈ ({1, 2} : Assignments Nat) ∧ 2 ∉ ({1} : Assignments Nat) ∧
      2 ∉ (DcePass.transferFn Meet.UNION ⟨{1}, {1, 2}, {2, 3}, ∅⟩).output) :=
  ⟨⟨by decide, (C14_generated_facts_win {1} {1, 2} {2, 3} ∅ 1).1 (by decide)⟩,
    ⟨by decide, by decide,
      (C14_generated_facts_win {1} {1, 2} {2, 3} ∅ 2).2 (by decide) (by decide)⟩⟩

end llvm

/-! # Properties of the local optimisations -/

namespace LocalOpts

/-! ## `LocalOpts::log2` -/

theorem log2Loop_eq (x : Nat) : ∀ i, log2Loop x i = i + Nat.log 2 x := by
  induction x using Nat.strong_induction_on with
  | _ x ih =>
    intro i
    rw [log2Loop]
    simp only [Nat.shiftRight_eq_div_pow, pow_one]
    by_cases h : x / 2 = 0
    · have hx : x < 2 := by omega
      simp [h, Nat.log_of_lt hx]
    · have hx : 2 ≤ x := by omega
      simp only [ne_eq, h, not_false_eq_true, if_true]
      rw [ih (x / 2) (by omega), Nat.log_of_one_lt_of_le (by norm_num) hx]
      omega

theorem log2_eq_log (x : Nat) : log2 x = Nat.log 2 x := by
  rw [log2, log2Loop_eq, Nat.zero_add]

theorem log2_two_pow (k : Nat) : log2 (2 ^ k) = k := by
  rw [log2_eq_log, Nat.log_pow (by norm_num)]

theorem log2_of_bounds (x r : Nat) (h1 : 2 ^ r ≤ x) (h2 : x < 2 ^ (r + 1)) : log2 x = r := by
  rw [log2_eq_log]
  exact Nat.log_eq_of_pow_le_of_lt_pow h1 h2

theorem log2_zero : log2 0 = 0 := by
  rw [log2_eq_log]; simp

/-! ## The power-of-two guard -/

theorem shiftOne_small (n : Nat) (h : n < 31) : shiftOne n = some ((2 : Int) ^ n) := by
  have h32 : n < 32 := by omega
  simp [shiftOne, h, h32]

theorem toUInt64_two_pow (n : Nat) (h : n < 64) : toUInt64 ((2 : Int) ^ n) = 2 ^ n := by
  unfold toUInt64
  have hlt : (2 : Nat) ^ n < 2 ^ 64 := Nat.pow_lt_pow_right (by norm_num) h
  have e : ((2 : Int) ^ n) = (((2 : Nat) ^ n : Nat) : Int) := by norm_num
  rw [e]
  have e2 : ((2 : Int) ^ 64) = (((2 : Nat) ^ 64 : Nat) : Int) := by norm_num
  rw [e2, ← Int.natCast_mod, Int.toNat_natCast, Nat.mod_eq_of_lt hlt]

theorem shiftGuard_two_pow (k : Nat) (h : k < 31) : shiftGuard (2 ^ k) = some true := by
  unfold shiftGuard
  rw [log2_two_pow, shiftOne_small k h]
  simp [toUInt64_two_pow k (by omega)]

/-- Where the guard holds, the value is `2 ^ log2 value` with an exponent of
at most 30. -/
theorem shiftGuard_true (v : Nat) (h : shiftGuard v = some true) :
    log2 v < 31 ∧ v = 2 ^ log2 v := by
  unfold shiftGuard at h
  by_cases h31 : log2 v < 31
  · rw [shiftOne_small _ h31] at h
    simp only [Option.map_some', Option.some.injEq, decide_eq_true_eq] at h
    rw [toUInt64_two_pow _ (by omega)] at h
    exact ⟨h31, h⟩
  · exfalso
    by_cases h32 : log2 v < 32
    · have e : log2 v = 31 := by omega
      rw [e] at h
      have hv : v = 18446744071562067968 := by
        have : shiftOne 31 = some (-2147483648) := by decide
        rw [this] at h
        simp only [Option.map_some', Option.some.injEq, decide_eq_true_eq] at h
        rw [h]
        decide
      have : log2 v = 63 := log2_of_bounds v 63 (by rw [hv]; norm_num) (by rw [hv]; norm_num)
      omega
    · simp [shiftOne, h32] at h

theorem shiftGuard_true_iff (v : Nat) :
    shiftGuard v = some true ↔ ∃ k, k < 31 ∧ v = 2 ^ k := by
  constructor
  · intro h
    exact ⟨log2 v, shiftGuard_true v h⟩
  · rintro ⟨k, hk, rfl⟩
    exact shiftGuard_two_pow k hk

/-! ## Values of expressions -/

theorem toUnsigned_lt (z : Int) : toUnsigned z < 2 ^ 32 := by
  unfold toUnsigned
  have h1 : 0 ≤ z % (2 : Int) ^ 32 := Int.emod_nonneg z (by norm_num)
  have h2 : z % (2 : Int) ^ 32 < (2 : Int) ^ 32 := Int.emod_lt_of_pos z (by norm_num)
  omega

theorem evalBinary_lt (op : BinaryOps) (a b r : Nat) (ha : a < 2 ^ 32)
    (h : evalBinary op a b = some r) : r < 2 ^ 32 := by
  cases op <;> simp only [evalBinary] at h
  · cases h; exact Nat.mod_lt _ (by norm_num)
  · cases h; exact toUnsigned_lt _
  · cases h; exact Nat.mod_lt _ (by norm_num)
  · split at h
    · cases h
    · cases h; exact lt_of_le_of_lt (Nat.div_le_self a b) ha
  · split at h
    · cases h
    · cases h; exact toUnsigned_lt _
  · split at h
    · cases h; exact Nat.mod_lt _ (by norm_num)
    · cases h
  · split at h
    · cases h
      rw [Nat.shiftRight_eq_div_pow]
      exact lt_of_le_of_lt (Nat.div_le_self a _) ha
    · cases h
  · split at h
    · cases h; exact toUnsigned_lt _
    · cases h

/-- Every value of an expression is a 32-bit pattern. -/
theorem eval_lt (env : Nat → Nat) (v : Value) (r : Nat) (h : eval env v = some r) :
    r < 2 ^ 32 := by
  cases v with
  | constantInt c => simp only [eval] at h; cases h; exact Nat.mod_lt _ (by norm_num)
  | argument s => simp only [eval] at h; cases h; exact Nat.mod_lt _ (by norm_num)
  | instruction o s => simp only [eval] at h; cases h; exact Nat.mod_lt _ (by norm_num)
  | binaryOperator op l r' =>
    simp only [eval] at h
    rcases hl : eval env l with _ | a
    · simp [hl] at h
    · rcases hr : eval env r' with _ | b
      · simp [hl, hr] at h
      · simp only [hl, hr] at h
        exact evalBinary_lt op a b r (eval_lt env l a hl) h

theorem eval_binary_const_right (env : Nat → Nat) (op : BinaryOps) (x : Value) (c : Nat) :
    eval env (Value.binaryOperator op x (Value.constantInt c)) =
      (eval env x).bind fun a => evalBinary op a (c % 2 ^ 32) := by
  simp only [eval]
  cases eval env x <;> rfl

theorem eval_binary_const_left (env : Nat → Nat) (op : BinaryOps) (x : Value) (c : Nat) :
    eval env (Value.binaryOperator op (Value.constantInt c) x) =
      (eval env x).bind fun a => evalBinary op (c % 2 ^ 32) a := by
  simp only [eval]
  cases eval env x <;> rfl

theorem toUnsigned_natCast (a : Nat) (ha : a < 2 ^ 32) : toUnsigned (a : Int) = a := by
  unfold toUnsigned
  have e2 : ((2 : Int) ^ 32) = (((2 : Nat) ^ 32 : Nat) : Int) := by norm_num
  rw [e2, ← Int.natCast_mod, Int.toNat_natCast, Nat.mod_eq_of_lt ha]

theorem toUnsigned_toSigned (a : Nat) (ha : a < 2 ^ 32) : toUnsigned (toSigned a) = a := by
  unfold toSigned
  split
  · exact toUnsigned_natCast a ha
  · unfold toUnsigned
    rw [Int.sub_emod, Int.emod_self, Int.sub_zero, Int.emod_emod]
    exact toUnsigned_natCast a ha

theorem toSigned_one : toSigned 1 = 1 := by decide

/-! ## Strength reduction -/

/-- C17: `LocalOpts::log2` is total on unsigned 64-bit values (the loop
ends) and returns the floor of the base-2 logarithm: `2 ^ r ≤ x < 2 ^ (r + 1)`
for `x ≥ 1`, with `r ≤ 63`; and `log2(0) = 0`. -/
theorem C17_log2_floor (x : Nat) (hx : x < 2 ^ 64) :
    (1 ≤ x → 2 ^ log2 x ≤ x ∧ x < 2 ^ (log2 x + 1)) ∧ log2 x ≤ 63 ∧ log2 0 = 0 := by
  refine ⟨fun h1 => ?_, ?_, log2_zero⟩
  · rw [log2_eq_log]
    exact ⟨Nat.pow_log_le_self 2 (by omega), Nat.lt_pow_succ_log_self (by norm_num) x⟩
  · rw [log2_eq_log]
    rcases Nat.eq_zero_or_pos x with h0 | hpos
    · subst h0; simp
    · have := Nat.log_lt_of_lt_pow (by omega) hx
      omega

theorem C17_log2_floor_witness :
    (1000 < 2 ^ 64) ∧
    ((1 ≤ 1000 → 2 ^ log2 1000 ≤ 1000 ∧ 1000 < 2 ^ (log2 1000 + 1)) ∧ log2 1000 ≤ 63 ∧
      log2 0 = 0) :=
  ⟨by norm_num, C17_log2_floor 1000 (by norm_num)⟩

/-- C16, evaluated where it fails: `2 ^ 31` is a power of two with
`log2 = 31`, but the guard `value == (1 << log2Value)` is false there, since
`1 << 31` is the `int` `-2 ^ 31`; for `2 ^ 32` the shift is undefined.  (The
guard is false at 0.) -/
theorem C16_guard_at_two_pow_31 :
    log2 (2 ^ 31) = 31 ∧ shiftGuard (2 ^ 31) = some false ∧
    shiftGuard (2 ^ 32) = none ∧ shiftGuard 0 = some false := by
  have h31 : log2 (2 ^ 31) = 31 := log2_two_pow 31
  have h32 : log2 (2 ^ 32) = 32 := log2_two_pow 32
  refine ⟨h31, ?_, ?_, ?_⟩
  · unfold shiftGuard
    rw [h31]
    decide
  · unfold shiftGuard
    rw [h32]
    decide
  · unfold shiftGuard
    rw [log2_zero]
    decide

/-- C12: a multiplication by a constant that passes the guard is replaced
by a left shift with the same value.  For an instruction `x` and a constant
`c` passing the guard: `c = 2 ^ log2 c`, both `mul x, c` and `mul c, x` become
`shl x, log2 c`, `(a * c) mod 2 ^ 32 = (a << log2 c) mod 2 ^ 32` for every `a`,
and the shift evaluates as the multiplication does. -/
theorem C12_mul_to_shl (x : Value) (c : Nat) (hx : isInstruction x = true)
    (hg : shiftGuard c = some true) :
    c = 2 ^ log2 c ∧
    strengthReduction ⟨BinaryOps.Mul, x, Value.constantInt c⟩
      = some ⟨BinaryOps.Shl, x, Value.constantInt (log2 c)⟩ ∧
    strengthReduction ⟨BinaryOps.Mul, Value.constantInt c, x⟩
      = some ⟨BinaryOps.Shl, x, Value.constantInt (log2 c)⟩ ∧
    (∀ a : Nat, (a * c) % 2 ^ 32 = (a <<< log2 c) % 2 ^ 32) ∧
    (∀ env, eval env (Value.binaryOperator BinaryOps.Shl x (Value.constantInt (log2 c)))
      = eval env (Value.binaryOperator BinaryOps.Mul x (Value.constantInt c))) ∧
    (∀ env, eval env (Value.binaryOperator BinaryOps.Shl x (Value.constantInt (log2 c)))
      = eval env (Value.binaryOperator BinaryOps.Mul (Value.constantInt c) x)) := by
  obtain ⟨hk, hc⟩ := shiftGuard_true c hg
  have hmul : ∀ a : Nat, (a * c) % 2 ^ 32 = (a <<< log2 c) % 2 ^ 32 := by
    intro a
    rw [Nat.shiftLeft_eq, ← hc]
  have hk32 : log2 c % 2 ^ 32 = log2 c := Nat.mod_eq_of_lt (by omega)
  have hc32 : c % 2 ^ 32 = c := by
    apply Nat.mod_eq_of_lt
    rw [hc]
    exact Nat.pow_lt_pow_right (by norm_num) (by omega)
  have hlt : log2 c < 32 := by omega
  have hci : isInstruction (Value.constantInt c) = false := rfl
  refine ⟨hc, ?_, ?_, hmul, ?_, ?_⟩
  · simp [strengthReduction, constantValue, hx, hg]
  · simp [strengthReduction, constantValue, hx, hci, hg]
  · intro env
    rw [eval_binary_const_right, eval_binary_const_right, hk32, hc32]
    cases eval env x with
    | none => rfl
    | some a => simp only [Option.some_bind, evalBinary, hlt, if_true, hmul a]
  · intro env
    rw [eval_binary_const_right, eval_binary_const_left, hk32, hc32]
    cases eval env x with
    | none => rfl
    | some a => simp only [Option.some_bind, evalBinary, hlt, if_true, Nat.mul_comm c a, hmul a]

theorem C12_mul_to_shl_witness :
    (isInstruction (Value.instruction 7 0) = true ∧ shiftGuard 8 = some true) ∧
    (8 = 2 ^ log2 8 ∧
    strengthReduction ⟨BinaryOps.Mul, Value.instruction 7 0, Value.constantInt 8⟩
      = some ⟨BinaryOps.Shl, Value.instruction 7 0, Value.constantInt (log2 8)⟩ ∧
    strengthReduction ⟨BinaryOps.Mul, Value.constantInt 8, Value.instruction 7 0⟩
      = some ⟨BinaryOps.Shl, Value.instruction 7 0, Value.constantInt (log2 8)⟩ ∧
    (∀ a : Nat, (a * 8) % 2 ^ 32 = (a <<< log2 8) % 2 ^ 32) ∧
    (∀ env, eval env (Value.binaryOperator BinaryOps.Shl (Value.instruction 7 0)
        (Value.constantInt (log2 8)))
      = eval env (Value.binaryOperator BinaryOps.Mul (Value.instruction 7 0)
        (Value.constantInt 8))) ∧
    (∀ env, eval env (Value.binaryOperator BinaryOps.Shl (Value.instruction 7 0)
        (Value.constantInt (log2 8)))
      = eval env (Value.binaryOperator BinaryOps.Mul (Value.constantInt 8)
        (Value.instruction 7 0)))) :=
  ⟨⟨rfl, shiftGuard_two_pow 3 (by norm_num)⟩,
    C12_mul_to_shl (Value.instruction 7 0) 8 rfl (shiftGuard_two_pow 3 (by norm_num))⟩

/-- C11, evaluated where it fails: `sdiv x, 2` with `x` an instruction is
replaced by `lshr x, 1`; for `x = -4` (the pattern `4294967292`) the division
is `-2` (the pattern `4294967294`) but the shift is `2147483646`. -/
theorem C11_sdiv_to_lshr_differs :
    strengthReduction ⟨BinaryOps.SDiv, Value.instruction 7 0, Value.constantInt 2⟩
      = some ⟨BinaryOps.LShr, Value.instruction 7 0, Value.constantInt 1⟩ ∧
    toSigned 4294967292 = -4 ∧
    eval (fun _ => 4294967292)
      (Value.binaryOperator BinaryOps.SDiv (Value.instruction 7 0) (Value.constantInt 2))
      = some 4294967294 ∧
    toSigned 4294967294 = -2 ∧
    eval (fun _ => 4294967292)
      (Value.binaryOperator BinaryOps.LShr (Value.instruction 7 0) (Value.constantInt 1))
      = some 2147483646 := by
  have hg : shiftGuard 2 = some true := shiftGuard_two_pow 1 (by norm_num)
  have hl : log2 2 = 1 := log2_two_pow 1
  refine ⟨?_, by decide, by decide, by decide, by decide⟩
  simp [strengthReduction, isInstruction, constantValue, hg, hl]

/-! ## Algebraic identities -/

/-- C13, evaluated where it fails: with `a = add p, 1` and `b = add q, 2`
(`isSameOperationAs` holds: both are additions) `sub a, b` is replaced by the
constant 0 and `sdiv a, b` by the constant 1, but for `p = 5`, `q = 0` the
subtraction is 4 and the division is 3. -/
theorem C13_same_operation_differs :
    isSameOperationAs
      (Value.binaryOperator BinaryOps.Add (Value.argument 0) (Value.constantInt 1))
      (Value.binaryOperator BinaryOps.Add (Value.argument 1) (Value.constantInt 2)) = true ∧
    algebraicIdentities ⟨BinaryOps.Sub,
      Value.binaryOperator BinaryOps.Add (Value.argument 0) (Value.constantInt 1),
      Value.binaryOperator BinaryOps.Add (Value.argument 1) (Value.constantInt 2)⟩
      = some (Value.constantInt 0) ∧
    eval (fun n => if n = 0 then 5 else 0) (Value.binaryOperator BinaryOps.Sub
      (Value.binaryOperator BinaryOps.Add (Value.argument 0) (Value.constantInt 1))
      (Value.binaryOperator BinaryOps.Add (Value.argument 1) (Value.constantInt 2)))
      = some 4 ∧
    eval (fun n => if n = 0 then 5 else 0) (Value.constantInt 0) = some 0 ∧
    algebraicIdentities ⟨BinaryOps.SDiv,
      Value.binaryOperator BinaryOps.Add (Value.argument 0) (Value.constantInt 1),
      Value.binaryOperator BinaryOps.Add (Value.argument 1) (Value.constantInt 2)⟩
      = some (Value.constantInt 1) ∧
    eval (fun n => if n = 0 then 5 else 0) (Value.binaryOperator BinaryOps.SDiv
      (Value.binaryOperator BinaryOps.Add (Value.argument 0) (Value.constantInt 1))
      (Value.binaryOperator BinaryOps.Add (Value.argument 1) (Value.constantInt 2)))
      = some 3 ∧
    eval (fun n => if n = 0 then 5 else 0) (Value.constantInt 1) = some 1 := by
  refine ⟨by decide, by decide, by decide, by decide, by decide, by decide, by decide⟩

theorem algebraicIdentities_const_right (op : BinaryOps) (x : Value) (c : Nat) :
    algebraicIdentities ⟨op, x, Value.constantInt c⟩ =
      if isInstruction x = true ∧
        (((op = BinaryOps.Mul ∨ op = BinaryOps.SDiv) ∧ c = 1) ∨
          ((op = BinaryOps.Add ∨ op = BinaryOps.Sub) ∧ c = 0))
      then some x else none := by
  have hci : isInstruction (Value.constantInt c) = false := rfl
  have hcv : constantValue (Value.constantInt c) = some c := rfl
  unfold algebraicIdentities
  simp only [hci, hcv, Bool.and_false, Bool.false_eq_true, if_false, isOne, isZero,
    decide_eq_true_eq]
  cases hx : isInstruction x
  · have : constantValue x = none ∨ ∃ v, constantValue x = some v := by
      cases constantValue x <;> simp
    rcases this with h | ⟨v, h⟩ <;> simp [h]
  · simp only [true_and]
    by_cases h1 : (op = BinaryOps.Mul ∨ op = BinaryOps.SDiv) ∧ c = 1
    · simp [h1]
    · by_cases h2 : (op = BinaryOps.Add ∨ op = BinaryOps.Sub) ∧ c = 0
      · simp [h1, h2]
      · simp [h1, h2]

theorem algebraicIdentities_const_left (op : BinaryOps) (x : Value) (c : Nat) :
    algebraicIdentities ⟨op, Value.constantInt c, x⟩ =
      if isInstruction x = true ∧
        ((op = BinaryOps.Mul ∧ c = 1) ∨ (op = BinaryOps.Add ∧ c = 0))
      then some x else none := by
  have hci : isInstruction (Value.constantInt c) = false := rfl
  have hcv : constantValue (Value.constantInt c) = some c := rfl
  unfold algebraicIdentities
  simp only [hci, hcv, Bool.false_and, Bool.false_eq_true, if_false, isOne, isZero,
    decide_eq_true_eq]
  cases hx : isInstruction x
  · simp
  · simp only [true_and]
    by_cases h1 : op = BinaryOps.Mul ∧ c = 1
    · simp [h1]
    · by_cases h2 : op = BinaryOps.Add ∧ c = 0
      · simp [h1, h2]
      · simp [h1, h2]

theorem evalBinary_right_identity (op : BinaryOps) (c a : Nat) (ha : a < 2 ^ 32)
    (h : ((op = BinaryOps.Mul ∨ op = BinaryOps.SDiv) ∧ c = 1) ∨
      ((op = BinaryOps.Add ∨ op = BinaryOps.Sub) ∧ c = 0)) :
    evalBinary op a (c % 2 ^ 32) = some a := by
  rcases h with ⟨h | h, rfl⟩ | ⟨h | h, rfl⟩ <;> subst h
  · simp only [evalBinary, Nat.one_mod_eq_one.2 (by norm_num : (2 : Nat) ^ 32 ≠ 1), Nat.mul_one,
      Nat.mod_eq_of_lt ha]
  · have h1 : (1 : Nat) % 2 ^ 32 = 1 := by norm_num
    simp only [evalBinary, h1, toSigned_one]
    rw [if_neg (by simp), Int.tdiv_one, toUnsigned_toSigned a ha]
  · simp only [evalBinary, Nat.zero_mod, Nat.add_zero, Nat.mod_eq_of_lt ha]
  · simp only [evalBinary, Nat.zero_mod, Nat.cast_zero, Int.sub_zero, toUnsigned_natCast a ha]

theorem evalBinary_left_identity (op : BinaryOps) (c a : Nat) (ha : a < 2 ^ 32)
    (h : (op = BinaryOps.Mul ∧ c = 1) ∨ (op = BinaryOps.Add ∧ c = 0)) :
    evalBinary op (c % 2 ^ 32) a = some a := by
  rcases h with ⟨h, rfl⟩ | ⟨h, rfl⟩ <;> subst h
  · simp only [evalBinary, Nat.one_mod_eq_one.2 (by norm_num : (2 : Nat) ^ 32 ≠ 1), Nat.one_mul,
      Nat.mod_eq_of_lt ha]
  · simp only [evalBinary, Nat.zero_mod, Nat.zero_add, Nat.mod_eq_of_lt ha]

/-- C15: the rewrites of `algebraicIdentities` on a binary operation with one
constant operand.  Every rewrite performed has one of the shapes `mul x, 1`,
`sdiv x, 1`, `add x, 0`, `sub x, 0`, `mul 1, x`, `add 0, x` with `x` an
instruction, replaces the operation by `x`, and preserves the value; these six
shapes are rewritten; `sdiv 1, x` and `sub 0, x` are left unchanged. -/
theorem C15_constant_operand_rewrites (op : BinaryOps) (x : Value) (c : Nat) :
    (∀ v, algebraicIdentities ⟨op, x, Value.constantInt c⟩ = some v →
      v = x ∧ isInstruction x = true ∧
      (((op = BinaryOps.Mul ∨ op = BinaryOps.SDiv) ∧ c = 1) ∨
        ((op = BinaryOps.Add ∨ op = BinaryOps.Sub) ∧ c = 0)) ∧
      ∀ env, eval env v = eval env (Value.binaryOperator op x (Value.constantInt c))) ∧
    (∀ v, algebraicIdentities ⟨op, Value.constantInt c, x⟩ = some v →
      v = x ∧ isInstruction x = true ∧
      ((op = BinaryOps.Mul ∧ c = 1) ∨ (op = BinaryOps.Add ∧ c = 0)) ∧
      ∀ env, eval env v = eval env (Value.binaryOperator op (Value.constantInt c) x)) ∧
    (isInstruction x = true →
      algebraicIdentities ⟨BinaryOps.Mul, x, Value.constantInt 1⟩ = some x ∧
      algebraicIdentities ⟨BinaryOps.SDiv, x, Value.constantInt 1⟩ = some x ∧
      algebraicIdentities ⟨BinaryOps.Add, x, Value.constantInt 0⟩ = some x ∧
      algebraicIdentities ⟨BinaryOps.Sub, x, Value.constantInt 0⟩ = some x ∧
      algebraicIdentities ⟨BinaryOps.Mul, Value.constantInt 1, x⟩ = some x ∧
      algebraicIdentities ⟨BinaryOps.Add, Value.constantInt 0, x⟩ = some x) ∧
    algebraicIdentities ⟨BinaryOps.SDiv, Value.constantInt 1, x⟩ = none ∧
    algebraicIdentities ⟨BinaryOps.Sub, Value.constantInt 0, x⟩ = none := by
  refine ⟨?_, ?_, ?_, ?_, ?_⟩
  · intro v hv
    rw [algebraicIdentities_const_right] at hv
    split at hv
    · rename_i h
      cases hv
      refine ⟨rfl, h.1, h.2, fun env => ?_⟩
      rw [eval_binary_const_right]
      rcases he : eval env x with _ | a
      · rfl
      · exact (evalBinary_right_identity op c a (eval_lt env x a he) h.2).symm
    · cases hv
  · intro v hv
    rw [algebraicIdentities_const_left] at hv
    split at hv
    · rename_i h
      cases hv
      refine ⟨rfl, h.1, h.2, fun env => ?_⟩
      rw [eval_binary_const_left]
      rcases he : eval env x with _ | a
      · rfl
      · exact (evalBinary_left_identity op c a (eval_lt env x a he) h.2).symm
    · cases hv
  · intro hx
    simp [algebraicIdentities_const_right, algebraicIdentities_const_left, hx]
  · simp [algebraicIdentities_const_left]
  · simp [algebraicIdentities_const_left]

theorem C15_constant_operand_rewrites_witness :
    isInstruction (Value.instruction 7 0) = true ∧
    (algebraicIdentities ⟨BinaryOps.Mul, Value.instruction 7 0, Value.constantInt 1⟩
        = some (Value.instruction 7 0) ∧
      algebraicIdentities ⟨BinaryOps.SDiv, Value.instruction 7 0, Value.constantInt 1⟩
        = some (Value.instruction 7 0) ∧
      algebraicIdentities ⟨BinaryOps.Add, Value.instruction 7 0, Value.constantInt 0⟩
        = some (Value.instruction 7 0) ∧
      algebraicIdentities ⟨BinaryOps.Sub, Value.instruction 7 0, Value.constantInt 0⟩
        = some (Value.instruction 7 0) ∧
      algebraicIdentities ⟨BinaryOps.Mul, Value.constantInt 1, Value.instruction 7 0⟩
        = some (Value.instruction 7 0) ∧
      algebraicIdentities ⟨BinaryOps.Add, Value.constantInt 0, Value.instruction 7 0⟩
        = some (Value.instruction 7 0)) :=
  ⟨rfl, (C15_constant_operand_rewrites BinaryOps.Mul (Value.instruction 7 0) 1).2.2.1 rfl⟩

/-- For a non-negative `x` the rewrite of `sdiv x, 2 ^ k` into `lshr x, k` is
right: both are `x / 2 ^ k`. -/
theorem sdiv_lshr_agree_nonneg (a k : Nat) (ha : a < 2 ^ 31) (hk : k < 31) :
    evalBinary BinaryOps.SDiv a (2 ^ k) = evalBinary BinaryOps.LShr a k := by
  have hpk : (2 : Nat) ^ k < 2 ^ 31 := Nat.pow_lt_pow_right (by norm_num) hk
  have hpos : 0 < (2 : Nat) ^ k := Nat.pow_pos (by norm_num)
  have hsa : toSigned a = (a : Int) := by
    unfold toSigned
    rw [if_pos ha]
  have hsb : toSigned (2 ^ k) = ((2 ^ k : Nat) : Int) := by
    unfold toSigned
    rw [if_pos hpk]
  have hk32 : k < 32 := by omega
  have hdiv : a / 2 ^ k < 2 ^ 32 := lt_of_le_of_lt (Nat.div_le_self a _) (by omega)
  simp only [evalBinary, hsa, hsb, hk32, if_true]
  rw [if_neg]
  · rw [← Int.ofNat_tdiv, toUnsigned_natCast _ hdiv, Nat.shiftRight_eq_div_pow]
  · rintro (h | ⟨h, _⟩)
    · omega
    · have : (0 : Int) ≤ (a : Int) := Int.natCast_nonneg a
      rw [h] at this
      norm_num at this

end LocalOpts
